import Mathlib

/-!
Verification of the Buglin browser-extension logic: the pure autofill-risk
classifier (`analyzeFieldAttributes`), the injectable-element predicate and
field-injection message handler, the recent-payload list, the forbidden-word
matcher and highlighter of the word scanner, the overlay lifecycle and the
aggregate-stat reconciliation of the field overlay engine.  Definitions are
shallow embeddings of the JavaScript source; theorems settle the frozen
claims about the spec.
-/

namespace Buglin

/-! ## Constants from utils.js / analysis.js -/

def MAX_RECENT : Nat := 5

def DEFAULT_FORBIDDEN_WORDS : List String :=
  ["todo", "fixme", "lorem", "ipsum", "placeholder", "tbd", "example.com"]

def AUTOFILL_KEYWORDS : List String :=
  ["email", "e-mail", "mail", "phone", "tel", "mobile", "cell", "fax",
   "name", "fname", "lname", "firstname", "lastname", "first-name", "last-name",
   "fullname", "full-name", "nickname", "username", "user",
   "address", "street", "city", "state", "province", "zip", "postal", "postcode",
   "country", "region", "apt", "suite", "building",
   "card", "credit", "ccnum", "ccname", "cvv", "cvc", "expiry", "expiration",
   "company", "organization", "org", "employer", "business",
   "title", "prefix", "suffix", "birthday", "bday", "age", "gender", "sex",
   "ssn", "social", "passport", "license"]

def AUTOCOMPLETE_VALUES_THAT_TRIGGER : List String :=
  ["on", "name", "email", "username", "new-password", "current-password",
   "organization", "organization-title", "street-address", "address-line1",
   "address-line2", "address-line3", "address-level1", "address-level2",
   "address-level3", "address-level4", "country", "country-name", "postal-code",
   "cc-name", "cc-given-name", "cc-additional-name", "cc-family-name", "cc-number",
   "cc-exp", "cc-exp-month", "cc-exp-year", "cc-csc", "cc-type", "transaction-currency",
   "transaction-amount", "language", "bday", "bday-day", "bday-month", "bday-year",
   "sex", "tel", "tel-country-code", "tel-national", "tel-area-code", "tel-local",
   "tel-extension", "impp", "url", "photo", "given-name", "additional-name", "family-name",
   "honorific-prefix", "honorific-suffix", "nickname"]

def SAFE_AUTOCOMPLETE_VALUES : List String :=
  ["off", "one-time-code", "nope", "false", "disabled"]

def SKIP_INPUT_TYPES : List String :=
  ["hidden", "submit", "button", "reset", "image", "file", "checkbox", "radio"]

def INJECTABLE_INPUT_TYPES : List String :=
  ["text", "email", "password", "search", "tel", "url", "number"]

/-! ## String helpers (JavaScript `String.prototype.includes`) -/

/-- Case-sensitive prefix test on character lists. -/
def startsWithChars : List Char → List Char → Bool
  | [], _ => true
  | _ :: _, [] => false
  | a :: s, b :: t => a == b && startsWithChars s t

/-- Suffix search on character lists: does `sub` occur anywhere in `l`?
Mirrors JavaScript `l.includes(sub)`. -/
def containsChars (sub : List Char) : List Char → Bool
  | [] => startsWithChars sub []
  | c :: rest => startsWithChars sub (c :: rest) || containsChars sub rest

/-- JavaScript `s.includes(sub)` on strings. -/
def strContains (s sub : String) : Bool := containsChars sub.data s.data

/-- Character-wise lowercase (JavaScript `toLowerCase` on the ASCII range;
structurally recursive so that concrete instances evaluate). -/
def strToLower (s : String) : String := ⟨s.data.map Char.toLower⟩

/-- Character-wise uppercase (JavaScript `toUpperCase` on the ASCII range). -/
def strToUpper (s : String) : String := ⟨s.data.map Char.toUpper⟩

/-! ## Risk verdict data model (analysis.js `analyzeFieldAttributes`) -/

inductive RiskType where
  | info
  | warning
  | error
deriving DecidableEq, Repr

/-- One finding in the risk verdict: the JS objects `{type, message}`. -/
structure Risk where
  rtype : RiskType
  message : String
deriving DecidableEq, Repr

inductive RiskLevel where
  | low
  | medium
  | high
deriving DecidableEq, Repr

/-- The `attributes` record echoed in the verdict: `tagName`/`type` are the
normalized (lowercased) values, the rest are the original-case inputs. -/
structure VerdictAttributes where
  tagName : String
  type : String
  name : String
  id : String
  autocomplete : String
  placeholder : String
deriving DecidableEq, Repr

structure Verdict where
  riskLevel : RiskLevel
  risks : List Risk
  attributes : VerdictAttributes
deriving DecidableEq, Repr

/-- Input to `analyzeFieldAttributes`.  A `none` field is an absent property
of the JS attrs object; the JS destructuring defaults then apply. -/
structure FieldAttrs where
  tagName : Option String
  type : Option String
  name : Option String
  id : Option String
  autocomplete : Option String
  placeholder : Option String
  labelText : Option String
deriving DecidableEq, Repr

/-- `riskLevel = 'medium'` assignment guarded by `riskLevel === 'low'`. -/
def bumpLowToMedium : RiskLevel → RiskLevel
  | .low => .medium
  | l => l

/-- Findings of the autocomplete-attribute check (rule 1 of the spec). -/
def autocompleteRisks (autocomplete nAC : String) : List Risk :=
  if nAC = "" then
    [⟨.warning, "No autocomplete attribute - Chrome may use form history"⟩]
  else if SAFE_AUTOCOMPLETE_VALUES.contains nAC then
    [⟨.info, "autocomplete=\"" ++ autocomplete ++ "\" - Should prevent autofill"⟩]
  else if AUTOCOMPLETE_VALUES_THAT_TRIGGER.contains nAC then
    [⟨.error, "autocomplete=\"" ++ autocomplete ++ "\" - WILL trigger autofill"⟩]
  else []

/-- Risk level after the autocomplete-attribute check. -/
def autocompleteLevel (nAC : String) : RiskLevel :=
  if nAC = "" then .medium
  else if SAFE_AUTOCOMPLETE_VALUES.contains nAC then .low
  else if AUTOCOMPLETE_VALUES_THAT_TRIGGER.contains nAC then .high
  else .low

/-- Findings of the input-type check (rule 2 of the spec). -/
def typeRisks (type nType : String) : List Risk :=
  if ["email", "tel", "url"].contains nType then
    [⟨.error, "type=\"" ++ type ++ "\" - This input type triggers autofill"⟩]
  else if nType = "password" then
    [⟨.warning, "type=\"password\" - May trigger password manager"⟩]
  else []

/-- Risk level after the input-type check. -/
def typeLevel (nType : String) (l : RiskLevel) : RiskLevel :=
  if ["email", "tel", "url"].contains nType then .high
  else if nType = "password" then (if l = .high then l else .medium)
  else l

/-- First autofill keyword occurring in the given normalized attribute value
(the JS `for … break` loop over `AUTOFILL_KEYWORDS`). -/
def firstKeywordIn (nValue : String) : Option String :=
  AUTOFILL_KEYWORDS.find? (fun kw => strContains nValue kw)

/-- Finding of the name-attribute keyword scan. -/
def nameKeywordRisks (name nName : String) : List Risk :=
  match firstKeywordIn nName with
  | some kw =>
      [⟨.warning, "name=\"" ++ name ++ "\" contains \"" ++ kw ++
          "\" - May trigger form history"⟩]
  | none => []

/-- Finding of the id-attribute keyword scan. -/
def idKeywordRisks (id nId : String) : List Risk :=
  match firstKeywordIn nId with
  | some kw =>
      [⟨.warning, "id=\"" ++ id ++ "\" contains \"" ++ kw ++
          "\" - May trigger form history"⟩]
  | none => []

/-- Finding of the placeholder keyword scan (info only). -/
def placeholderKeywordRisks (nPlaceholder : String) : List Risk :=
  match firstKeywordIn nPlaceholder with
  | some kw => [⟨.info, "Placeholder contains \"" ++ kw ++ "\" - Minor autofill signal"⟩]
  | none => []

/-- Finding of the label-text keyword scan (info only). -/
def labelKeywordRisks (nLabelText : String) : List Risk :=
  match firstKeywordIn nLabelText with
  | some kw => [⟨.info, "Label contains \"" ++ kw ++ "\" - Chrome may use this as context"⟩]
  | none => []

/-- Message of rule 1 (missing autocomplete attribute). -/
def missingAutocompleteMsg : String :=
  "No autocomplete attribute - Chrome may use form history"

/-- Message of rule 4 (form-history retention for named fields). -/
def formHistoryMsg : String :=
  "Has name attribute without autocomplete=\"off\" - Chrome saves form history for this field"

/-- Condition of rule 4: name present, autocomplete present but not safe. -/
def formHistoryCond (nName nAC : String) : Bool :=
  !(nName == "") && !(nAC == "") && !(SAFE_AUTOCOMPLETE_VALUES.contains nAC)

/-- Finding of rule 4. -/
def formHistoryRisks (nName nAC : String) : List Risk :=
  if formHistoryCond nName nAC then [⟨.warning, formHistoryMsg⟩] else []

/-- Risk level accumulated across rules 1–4 in source order: the
autocomplete check, the input-type check, the name/id keyword escalations,
and the form-history escalation. -/
def accumulateLevel (nType nName nId nAC : String) : RiskLevel :=
  let l1 := autocompleteLevel nAC
  let l2 := typeLevel nType l1
  let l3 := if (firstKeywordIn nName).isSome then bumpLowToMedium l2 else l2
  let l4 := if (firstKeywordIn nId).isSome then bumpLowToMedium l3 else l3
  if formHistoryCond nName nAC then bumpLowToMedium l4 else l4

/-- The findings pushed by rules 1–4 in source order. -/
def accumulateRisks (type name id autocomplete : String)
    (nType nName nId nAC nPlaceholder nLabel : String) : List Risk :=
  autocompleteRisks autocomplete nAC ++ typeRisks type nType ++
  nameKeywordRisks name nName ++ idKeywordRisks id nId ++
  placeholderKeywordRisks nPlaceholder ++ labelKeywordRisks nLabel ++
  formHistoryRisks nName nAC

/-- The pure autofill-risk classifier of analysis.js.  Returns `none` for
skipped input types and select elements, otherwise a verdict accumulating
findings of rules 1–4 in source order. -/
def analyzeFieldAttributes (attrs : FieldAttrs) : Option Verdict :=
  let tagName := attrs.tagName.getD ""
  let type := attrs.type.getD "text"
  let name := attrs.name.getD ""
  let id := attrs.id.getD ""
  let autocomplete := attrs.autocomplete.getD ""
  let placeholder := attrs.placeholder.getD ""
  let labelText := attrs.labelText.getD ""
  let nTag := strToLower tagName
  let nType := strToLower type
  let nName := strToLower name
  let nId := strToLower id
  let nAC := strToLower autocomplete
  let nPlaceholder := strToLower placeholder
  let nLabel := strToLower labelText
  if SKIP_INPUT_TYPES.contains nType then none
  else if nTag = "select" then none
  else
    some ⟨accumulateLevel nType nName nId nAC,
          accumulateRisks type name id autocomplete nType nName nId nAC nPlaceholder nLabel,
          ⟨nTag, nType, name, id, autocomplete, placeholder⟩⟩

/-! ## JavaScript-value semantics of `analyzeFieldAttributes`

The JS function destructures its argument with defaults that apply only to
`undefined` and then calls `toLowerCase()` on every field, so a `null`
argument or a `null` field value throws a `TypeError`.  This model evaluates
the function over JS values (absent, null, or a string) and returns the
thrown error, making the no-throw domain of the function provable. -/

/-- A JavaScript attribute value as received by `analyzeFieldAttributes`:
absent (`undefined`), `null`, or a string. -/
inductive JSVal where
  | undef
  | null
  | str (s : String)
deriving DecidableEq, Repr

/-- An attrs object whose properties are arbitrary JS values. -/
structure JSFieldAttrs where
  tagName : JSVal
  type : JSVal
  name : JSVal
  id : JSVal
  autocomplete : JSVal
  placeholder : JSVal
  labelText : JSVal
deriving DecidableEq, Repr

/-- Destructuring with a default: only `undefined` takes the default. -/
def jsDestructure (v : JSVal) (d : String) : JSVal :=
  match v with
  | .undef => .str d
  | v => v

/-- Destructure a field and call `toLowerCase()` on it, returning the
original and normalized strings, or the thrown `TypeError` when the value
after defaulting is not a string. -/
def jsField (v : JSVal) (d : String) : Except String (String × String) :=
  match jsDestructure v d with
  | .str s => .ok (s, strToLower s)
  | _ => .error "TypeError: toLowerCase is not a function on null"

/-- `analyzeFieldAttributes` over JS values: `none` models a `null` or
`undefined` argument (the destructuring itself throws); otherwise the seven
fields are destructured and normalized in source order, the first non-string
field throwing, and the classification proceeds as in the pure model. -/
def analyzeFieldAttributesJS (attrs : Option JSFieldAttrs) :
    Except String (Option Verdict) :=
  match attrs with
  | none => .error "TypeError: cannot destructure null or undefined"
  | some a => do
    let (_tagName, nTag) ← jsField a.tagName ""
    let (type, nType) ← jsField a.type "text"
    let (name, nName) ← jsField a.name ""
    let (id, nId) ← jsField a.id ""
    let (autocomplete, nAC) ← jsField a.autocomplete ""
    let (placeholder, nPlaceholder) ← jsField a.placeholder ""
    let (_labelText, nLabel) ← jsField a.labelText ""
    if SKIP_INPUT_TYPES.contains nType then pure none
    else if nTag = "select" then pure none
    else
      pure (some ⟨accumulateLevel nType nName nId nAC,
            accumulateRisks type name id autocomplete nType nName nId nAC nPlaceholder nLabel,
            ⟨nTag, nType, name, id, autocomplete, placeholder⟩⟩)

/-- The embedding of a string-or-absent field into JS values. -/
def toJSVal : Option String → JSVal
  | none => .undef
  | some s => .str s

/-- The embedding of a string-or-absent attrs record into a JS object. -/
def toJSAttrs (attrs : FieldAttrs) : JSFieldAttrs :=
  ⟨toJSVal attrs.tagName, toJSVal attrs.type, toJSVal attrs.name, toJSVal attrs.id,
   toJSVal attrs.autocomplete, toJSVal attrs.placeholder, toJSVal attrs.labelText⟩

/-! ## Injectable-element predicate (analysis.js `isInjectableElement`) and the
field-injection message handler of the content script -/

/-- JavaScript `v || d` for string-or-missing values: `null`/`undefined` and
the empty string are falsy. -/
def jsOrDefault (v : Option String) (d : String) : String :=
  match v with
  | none => d
  | some s => if s = "" then d else s

/-- Argument shape of `isInjectableElement`. -/
structure ElementInfo where
  tagName : Option String
  type : Option String
  isContentEditable : Bool
deriving DecidableEq, Repr

/-- Pure injectable-element check of analysis.js: contentEditable, textarea,
or an input whose type is a text-accepting kind.  `none` models a
`null`/`undefined` argument. -/
def isInjectableElement (info : Option ElementInfo) : Bool :=
  match info with
  | none => false
  | some i =>
    if i.isContentEditable then true
    else
      let normalizedTagName := strToUpper (jsOrDefault i.tagName "")
      if normalizedTagName = "TEXTAREA" then true
      else if normalizedTagName = "INPUT" then
        INJECTABLE_INPUT_TYPES.contains (strToLower (jsOrDefault i.type "text"))
      else false

/-- A DOM element as the injection handler sees it.  `typeAttr` is
`getAttribute('type')` (`none` when the attribute is absent). -/
structure PageElement where
  tagName : String
  typeAttr : Option String
  isContentEditable : Bool
  disabled : Bool
  readOnly : Bool
  value : String
  textContent : String
deriving DecidableEq, Repr

/-- Content-script wrapper `isInjectable(element)`: extracts the element info
and delegates to the pure predicate.  `none` models no focused element. -/
def isInjectable (element : Option PageElement) : Bool :=
  match element with
  | none => false
  | some e => isInjectableElement (some ⟨some e.tagName, e.typeAttr, e.isContentEditable⟩)

/-- Outcome of one `fillField`/`appendField` message: the (possibly updated)
active element, the `sendResponse` success flag, the error text of the
on-page notification if any, and the synthesized DOM events. -/
structure InjectionResult where
  element : Option PageElement
  success : Bool
  errorNote : Option String
  events : List String
deriving DecidableEq, Repr

/-- The `fillField` (`replace = true`) and `appendField` (`replace = false`)
branches of the content script's `chrome.runtime.onMessage` listener. -/
def handleFieldMessage (replace : Bool) (v : String) (active : Option PageElement) :
    InjectionResult :=
  match active with
  | none => ⟨none, false, some "No text field focused", []⟩
  | some e =>
    if !(isInjectable (some e)) then
      ⟨some e, false, some "No text field focused", []⟩
    else if e.disabled || e.readOnly then
      ⟨some e, false, some "Field is disabled or read-only", []⟩
    else
      let e' :=
        if e.isContentEditable then
          { e with textContent := if replace then v else e.textContent ++ v }
        else
          { e with value := if replace then v else e.value ++ v }
      ⟨some e', true, none, ["input", "change"]⟩

/-! ## Recent-payload list (utils.js `addToRecentList`) -/

/-- One `{category, index, value}` entry of the recent-payload list. -/
structure RecentEntry where
  category : String
  index : Nat
  value : String
deriving DecidableEq, Repr

/-- Pure recent-list update: drop any entry with the same `(category, index)`
key, push the new entry to the front, and cap the length at `MAX_RECENT`. -/
def addToRecentList (recentPayloads : List RecentEntry) (category : String)
    (index : Nat) (value : String) : List RecentEntry :=
  let result := recentPayloads.filter (fun r => !(r.category == category && r.index == index))
  let result := (⟨category, index, value⟩ : RecentEntry) :: result
  if result.length > MAX_RECENT then result.take MAX_RECENT else result

/-! ## Forbidden-word matcher (wordscanner.js)

The scanner builds the regex `\b(w1|w2|…)\b` with flags `gi` and drives a
`pattern.exec` loop over a text node's content.  The embedding models the
regex semantics directly: a word matches at a position when the lowercased
characters agree and a `\b` word boundary holds on both sides; the `g`-flag
loop emits the leftmost match (first alternative in list order) and resumes
at its end. -/

/-- JavaScript `\w`: ASCII letter, digit or underscore. -/
def isWordChar (c : Char) : Bool := c.isAlphanum || c == '_'

/-- Whether the character at index `i` (if any) is a word character. -/
def wordCharAt (t : List Char) (i : Nat) : Bool :=
  match t[i]? with
  | some c => isWordChar c
  | none => false

/-- JavaScript `\b` at offset `i`: the word-character status changes between
the previous character and the current one (out-of-range counts as
non-word). -/
def boundaryAt (t : List Char) (i : Nat) : Bool :=
  (match i with
   | 0 => false
   | j + 1 => wordCharAt t j) != wordCharAt t i

/-- Case-insensitive prefix test (the `i` flag on a literal alternative). -/
def ciStartsWith : List Char → List Char → Bool
  | [], _ => true
  | _ :: _, [] => false
  | a :: s, b :: t => (a.toLower == b.toLower) && ciStartsWith s t

/-- Case-insensitive occurrence of `w` at index `i` of `t`. -/
def ciMatchAt (t : List Char) (i : Nat) (w : List Char) : Bool :=
  ciStartsWith w (t.drop i)

/-- Full regex match of the alternative `w` at index `i`: boundary before,
case-insensitive literal, boundary after. -/
def wordMatchAt (t : List Char) (i : Nat) (w : String) : Bool :=
  boundaryAt t i && ciMatchAt t i w.data && boundaryAt t (i + w.length)

/-- First alternative (in word-list order) matching at index `i`; ordered
alternation of the compiled pattern. -/
def firstWordAt (ws : List String) (t : List Char) (i : Nat) : Option String :=
  ws.find? (fun w => wordMatchAt t i w)

/-- The `pattern.exec` loop: scan left to right, emit `(start, length)` of
each match, resume at `lastIndex = ` match end.  `fuel` bounds the recursion;
`execMatches` supplies enough for any word list of nonempty words. -/
def execScan (ws : List String) (t : List Char) : Nat → Nat → List (Nat × Nat)
  | _, 0 => []
  | i, fuel + 1 =>
    if t.length ≤ i then []
    else
      match firstWordAt ws t i with
      | some w => (i, w.length) :: execScan ws t (i + w.length) fuel
      | none => execScan ws t (i + 1) fuel

/-- All matches of the compiled pattern in `t`, leftmost first. -/
def execMatches (ws : List String) (t : List Char) : List (Nat × Nat) :=
  execScan ws t 0 (t.length + 1)

/-- A DOM fragment produced by `highlightForbiddenWordsInNode`: a plain text
node or a `word-scanner-highlight` span (holding its text content). -/
inductive Fragment where
  | plain (s : String)
  | highlight (s : String)
deriving DecidableEq, Repr

/-- Text content of a fragment. -/
def Fragment.text : Fragment → String
  | .plain s => s
  | .highlight s => s

/-- JavaScript `text.slice(a, b)` over the character list. -/
def sliceStr (t : List Char) (a b : Nat) : String :=
  String.mk ((t.drop a).take (b - a))

/-- The fragment-building loop body: before each match push the plain text
since `lastIndex`, then the highlight span; after the loop push the
remaining text. -/
def buildFragments (t : List Char) : Nat → List (Nat × Nat) → List Fragment
  | lastIndex, [] =>
      if lastIndex < t.length then [.plain (sliceStr t lastIndex t.length)] else []
  | lastIndex, (i, n) :: ms =>
      (if lastIndex < i then [.plain (sliceStr t lastIndex i)] else []) ++
      .highlight (sliceStr t i (i + n)) :: buildFragments t (i + n) ms

/-- `highlightForbiddenWordsInNode`: the node sequence replacing the original
text node (the node is left untouched when no fragment was produced). -/
def highlightForbiddenWordsInNode (ws : List String) (t : String) : List Fragment :=
  let fragments := buildFragments t.data 0 (execMatches ws t.data)
  if fragments.isEmpty then [.plain t] else fragments

/-- `removeWordHighlights` on a fragment sequence: every highlight span is
replaced by a plain text node carrying its text content. -/
def removeWordHighlights (fs : List Fragment) : List Fragment :=
  fs.map (fun f =>
    match f with
    | .highlight s => .plain s
    | f => f)

/-- Concatenated text content of a node sequence. -/
def fragmentsText : List Fragment → String
  | [] => ""
  | f :: fs => f.text ++ fragmentsText fs

/-! ## Overlay lifecycle (content.js `createOverlay`) -/

/-- Overlay-engine state: the overlay elements currently in the document
(by id), the `overlayMap` WeakMap from element to overlay id, and a fresh-id
counter. -/
structure OverlayState where
  doc : List Nat
  omap : Nat → Option Nat
  next : Nat

/-- `createOverlay` for element `e`: remove the existing overlay recorded in
`overlayMap` if any, append a fresh overlay to the document body, and record
it in the map. -/
def createOverlay (e : Nat) (s : OverlayState) : OverlayState :=
  let doc1 :=
    match s.omap e with
    | some o => s.doc.erase o
    | none => s.doc
  ⟨doc1 ++ [s.next], fun x => if x = e then some s.next else s.omap x, s.next + 1⟩

/-- Overlays in the document that `overlayMap` associates to element `e`. -/
def overlaysOf (e : Nat) (s : OverlayState) : List Nat :=
  s.doc.filter (fun o => s.omap e == some o)

/-- Well-formedness of the overlay state: document ids are distinct and below
the fresh counter. -/
def OverlayInv (s : OverlayState) : Prop :=
  s.doc.Nodup ∧ ∀ o ∈ s.doc, o < s.next

/-! ## Aggregate stats and reconciliation (content.js `reconcileStats`) -/

/-- The `fieldStats` counters. -/
structure FieldStats where
  high : Nat
  medium : Nat
  low : Nat
  total : Nat
deriving DecidableEq, Repr

/-- One recount step over a rendered overlay, dispatching on its class list
exactly as the `classList.contains` cascade does. -/
def countOverlayStep (acc : FieldStats) (classes : List String) : FieldStats :=
  if classes.contains "autofill-risk-high" then
    { acc with high := acc.high + 1, total := acc.total + 1 }
  else if classes.contains "autofill-risk-medium" then
    { acc with medium := acc.medium + 1, total := acc.total + 1 }
  else if classes.contains "autofill-risk-low" then
    { acc with low := acc.low + 1, total := acc.total + 1 }
  else { acc with total := acc.total + 1 }

/-- Ground-truth recount over the `.autofill-detector-overlay` elements
currently in the document (each given by its class list). -/
def countOverlayClasses (overlays : List (List String)) : FieldStats :=
  overlays.foldl countOverlayStep ⟨0, 0, 0, 0⟩

/-- The component-wise drift test of `reconcileStats`. -/
def statsDiffer (s a : FieldStats) : Bool :=
  s.high != a.high || s.medium != a.medium || s.low != a.low || s.total != a.total

/-- `reconcileStats`: recount from the rendered overlays; on drift replace
the counters and send one `updateBadge` stat report (second component), on
agreement send nothing. -/
def reconcileStats (fieldStats : FieldStats) (overlays : List (List String)) :
    FieldStats × List FieldStats :=
  let actual := countOverlayClasses overlays
  if statsDiffer fieldStats actual then (actual, [actual]) else (fieldStats, [])

/-! ## General helper lemmas -/

theorem bumpLowToMedium_high : bumpLowToMedium .high = .high := rfl

theorem bumpLowToMedium_ne_low (l : RiskLevel) : bumpLowToMedium l ≠ .low := by
  cases l <;> simp [bumpLowToMedium]

/-! ## Claim C2: which inputs are skipped -/

/-- Claim C2 (amended): `analyzeFieldAttributes` returns null exactly when the
case-insensitive input type is in the skip set or the case-insensitive tag
name is `select`; every other input yields a non-null verdict. -/
theorem analyzeFieldAttributes_none_iff (attrs : FieldAttrs) :
    analyzeFieldAttributes attrs = none ↔
      (SKIP_INPUT_TYPES.contains (strToLower (attrs.type.getD "text")) = true ∨
       strToLower (attrs.tagName.getD "") = "select") := by
  simp only [analyzeFieldAttributes]
  split_ifs with h1 h2 <;> simp_all

/-- Claim C2, counterexample to the claim as stated: a `div` is a non-input,
non-textarea element, yet the classifier does not return null for it — only
`select` tags are skipped. -/
theorem analyzeFieldAttributes_div_not_none :
    analyzeFieldAttributes ⟨some "div", some "text", none, none, none, none, none⟩ ≠ none := by
  decide

/-! ## Claim C1: email/tel/url input types -/

/-- Claim C1, counterexample to the claim as stated: for a `select` element
whose type attribute is `email` the classifier returns null, not a high-risk
verdict. -/
theorem analyzeFieldAttributes_select_email_none :
    analyzeFieldAttributes ⟨some "select", some "email", none, none, none, none, none⟩ = none := by
  decide

/-- Claim C1 (amended): for every attribute combination whose type is
email/tel/url (case-insensitive) and whose tag name is not `select`, the
classifier returns a verdict with riskLevel high containing the error finding
for the input type. -/
theorem analyzeFieldAttributes_email_tel_url_high (attrs : FieldAttrs)
    (htype : ["email", "tel", "url"].contains (strToLower (attrs.type.getD "text")) = true)
    (htag : strToLower (attrs.tagName.getD "") ≠ "select") :
    ∃ v, analyzeFieldAttributes attrs = some v ∧ v.riskLevel = RiskLevel.high ∧
      (⟨RiskType.error, "type=\"" ++ attrs.type.getD "text" ++
          "\" - This input type triggers autofill"⟩ : Risk) ∈ v.risks := by
  have h3 : strToLower (attrs.type.getD "text") = "email" ∨
      strToLower (attrs.type.getD "text") = "tel" ∨
      strToLower (attrs.type.getD "text") = "url" := by
    simpa using htype
  have hskip : ¬(SKIP_INPUT_TYPES.contains (strToLower (attrs.type.getD "text")) = true) := by
    rcases h3 with h | h | h <;> rw [h] <;> decide
  have hlevel : typeLevel (strToLower (attrs.type.getD "text"))
      (autocompleteLevel (strToLower (attrs.autocomplete.getD ""))) = RiskLevel.high := by
    rw [typeLevel, if_pos htype]
  have hrisks : typeRisks (attrs.type.getD "text") (strToLower (attrs.type.getD "text")) =
      [⟨RiskType.error, "type=\"" ++ attrs.type.getD "text" ++
          "\" - This input type triggers autofill"⟩] := by
    rw [typeRisks, if_pos htype]
  simp only [analyzeFieldAttributes]
  rw [if_neg hskip, if_neg htag]
  refine ⟨_, rfl, ?_, ?_⟩
  · show accumulateLevel _ _ _ _ = RiskLevel.high
    simp only [accumulateLevel]
    rw [hlevel]
    split_ifs <;> rfl
  · show _ ∈ accumulateRisks _ _ _ _ _ _ _ _ _ _
    simp only [accumulateRisks]
    rw [hrisks]
    simp

/-- Witness for C1: a plain `<input type="email">`. -/
theorem analyzeFieldAttributes_email_tel_url_high_witness :
    ∃ v, analyzeFieldAttributes ⟨some "input", some "email", none, none, none, none, none⟩ =
        some v ∧ v.riskLevel = RiskLevel.high ∧
      (⟨RiskType.error, "type=\"" ++ "email" ++
          "\" - This input type triggers autofill"⟩ : Risk) ∈ v.risks :=
  analyzeFieldAttributes_email_tel_url_high
    ⟨some "input", some "email", none, none, none, none, none⟩ (by decide) (by decide)

/-! ## Claim C9: totality and defaults -/

/-- Spec-side default filling: the documented defaults for absent fields
(tag to empty, kind to text, the rest to empty string). -/
def fillDefaults (attrs : FieldAttrs) : FieldAttrs :=
  ⟨some (attrs.tagName.getD ""), some (attrs.type.getD "text"), some (attrs.name.getD ""),
   some (attrs.id.getD ""), some (attrs.autocomplete.getD ""),
   some (attrs.placeholder.getD ""), some (attrs.labelText.getD "")⟩

theorem jsField_toJSVal (o : Option String) (d : String) :
    jsField (toJSVal o) d = .ok (o.getD d, strToLower (o.getD d)) := by
  cases o <;> rfl

/-- Claim C9, counterexample to the claim as stated: destructuring defaults
cover only `undefined`, so an attrs object with a `null` type field — and
likewise a `null` attrs argument — throws a `TypeError` instead of returning
a value. -/
theorem analyzeFieldAttributesJS_null_throws :
    analyzeFieldAttributesJS
        (some ⟨.str "input", .null, .undef, .undef, .undef, .undef, .undef⟩) =
      .error "TypeError: toLowerCase is not a function on null" ∧
    analyzeFieldAttributesJS none =
      .error "TypeError: cannot destructure null or undefined" := by
  exact ⟨rfl, rfl⟩

/-- Claim C9 (amended): restricted to attrs whose fields are absent or
strings (the shapes the JS API documents), `analyzeFieldAttributes` returns
a value without throwing: the JS-value evaluation succeeds and agrees with
the pure classifier, which is total, pure and deterministic by construction;
and absent fields behave exactly as the documented safe defaults (tagName to
the empty string, type to "text", the rest to the empty string). -/
theorem analyzeFieldAttributesJS_total_defaults (attrs : FieldAttrs) :
    analyzeFieldAttributesJS (some (toJSAttrs attrs)) =
      .ok (analyzeFieldAttributes attrs) ∧
    analyzeFieldAttributes attrs = analyzeFieldAttributes (fillDefaults attrs) := by
  refine ⟨?_, rfl⟩
  simp only [analyzeFieldAttributesJS, toJSAttrs, jsField_toJSVal, analyzeFieldAttributes,
    bind, Except.bind]
  split_ifs <;> rfl

/-! ## Claim C10: recent-payload list invariants -/

/-- Claim C10: starting from a list with pairwise-distinct
`(category, index)` keys, `addToRecentList` returns a list of length at most
`MAX_RECENT` whose first element is the new entry and whose keys are again
pairwise distinct.  (The JS input array is not mutated: the function builds
its result with `filter`/`unshift`/`slice` on a fresh array, modelled here by
a pure function.) -/
theorem addToRecentList_spec (recentPayloads : List RecentEntry) (category : String)
    (index : Nat) (value : String)
    (h : recentPayloads.Pairwise (fun a b => ¬(a.category = b.category ∧ a.index = b.index))) :
    (addToRecentList recentPayloads category index value).length ≤ MAX_RECENT ∧
    (addToRecentList recentPayloads category index value).head? =
      some ⟨category, index, value⟩ ∧
    (addToRecentList recentPayloads category index value).Pairwise
      (fun a b => ¬(a.category = b.category ∧ a.index = b.index)) := by
  have hfil : (recentPayloads.filter
      (fun r => !(r.category == category && r.index == index))).Pairwise
      (fun a b => ¬(a.category = b.category ∧ a.index = b.index)) :=
    List.Pairwise.sublist (List.filter_sublist _) h
  have hcons : ((⟨category, index, value⟩ : RecentEntry) ::
      recentPayloads.filter (fun r => !(r.category == category && r.index == index))).Pairwise
      (fun a b => ¬(a.category = b.category ∧ a.index = b.index)) := by
    refine List.Pairwise.cons ?_ hfil
    intro b hb hcontra
    have hpred := List.of_mem_filter hb
    simp only [Bool.not_eq_true', Bool.and_eq_false_iff, beq_eq_false_iff_ne] at hpred
    rcases hpred with hc | hi
    · exact hc hcontra.1.symm
    · exact hi hcontra.2.symm
  simp only [addToRecentList]
  split_ifs with hlen
  · refine ⟨?_, ?_, ?_⟩
    · exact List.length_take_le _ _
    · have : 0 < MAX_RECENT := by decide
      cases hm : MAX_RECENT with
      | zero => omega
      | succ k => simp [List.take]
    · exact List.Pairwise.sublist (List.take_sublist _ _) hcons
  · exact ⟨by omega, rfl, hcons⟩

/-- Witness for C10: adding to a two-entry list with distinct keys. -/
theorem addToRecentList_spec_witness :
    (addToRecentList [⟨"a", 1, "v"⟩, ⟨"b", 2, "w"⟩] "a" 1 "new").length ≤ MAX_RECENT ∧
    (addToRecentList [⟨"a", 1, "v"⟩, ⟨"b", 2, "w"⟩] "a" 1 "new").head? =
      some ⟨"a", 1, "new"⟩ ∧
    (addToRecentList [⟨"a", 1, "v"⟩, ⟨"b", 2, "w"⟩] "a" 1 "new").Pairwise
      (fun a b => ¬(a.category = b.category ∧ a.index = b.index)) :=
  addToRecentList_spec [⟨"a", 1, "v"⟩, ⟨"b", 2, "w"⟩] "a" 1 "new" (by simp)

/-! ## Claim C6: stat reconciliation -/

theorem statsDiffer_eq_false_iff (s a : FieldStats) : statsDiffer s a = false ↔ s = a := by
  cases s
  cases a
  simp [statsDiffer, FieldStats.mk.injEq, and_assoc]

/-- The overlay class lists of the spec's worked example: one high, two
medium, one low. -/
def demoOverlayClasses : List (List String) :=
  [["autofill-detector-overlay", "autofill-risk-high"],
   ["autofill-detector-overlay", "autofill-risk-medium"],
   ["autofill-detector-overlay", "autofill-risk-medium"],
   ["autofill-detector-overlay", "autofill-risk-low"]]

/-- Claim C6: `reconcileStats` recounts the rendered overlays by risk class;
on drift it replaces the counters with the recount and sends exactly one stat
report, on agreement it keeps them and sends none.  The worked example:
overlays classed high, medium, medium, low against zeroed counters yield
counts 1/2/1/4 and one report; against matching counters, zero reports. -/
theorem reconcileStats_spec :
    (∀ fieldStats overlays,
       (reconcileStats fieldStats overlays).1 = countOverlayClasses overlays ∧
       (reconcileStats fieldStats overlays).2.length =
         (if fieldStats = countOverlayClasses overlays then 0 else 1)) ∧
    reconcileStats ⟨0, 0, 0, 0⟩ demoOverlayClasses = (⟨1, 2, 1, 4⟩, [⟨1, 2, 1, 4⟩]) ∧
    reconcileStats ⟨1, 2, 1, 4⟩ demoOverlayClasses = (⟨1, 2, 1, 4⟩, []) := by
  refine ⟨?_, by decide, by decide⟩
  intro fieldStats overlays
  simp only [reconcileStats]
  by_cases hd : statsDiffer fieldStats (countOverlayClasses overlays) = false
  · rw [if_neg (by simp [hd]), if_pos (statsDiffer_eq_false_iff _ _ |>.mp hd)]
    exact ⟨(statsDiffer_eq_false_iff _ _ |>.mp hd), rfl⟩
  · rw [Bool.not_eq_false] at hd
    have hne : ¬(fieldStats = countOverlayClasses overlays) := by
      intro he
      rw [(statsDiffer_eq_false_iff _ _).mpr he] at hd
      cases hd
    rw [if_pos hd, if_neg hne]
    exact ⟨rfl, rfl⟩

/-! ## Claim C7: overlay identity -/

theorem createOverlay_doc1_sublist (e : Nat) (s : OverlayState) :
    (match s.omap e with
     | some o => s.doc.erase o
     | none => s.doc).Sublist s.doc := by
  cases s.omap e with
  | none => exact List.Sublist.refl _
  | some o => exact List.erase_sublist _ _

theorem createOverlay_inv (e : Nat) (s : OverlayState) (h : OverlayInv s) :
    OverlayInv (createOverlay e s) := by
  obtain ⟨hnd, hlt⟩ := h
  have hsub := createOverlay_doc1_sublist e s
  simp only [OverlayInv, createOverlay]
  constructor
  · rw [List.nodup_append]
    refine ⟨List.Nodup.sublist hsub hnd, List.nodup_singleton _, ?_⟩
    intro a ha hb
    have : a < s.next := hlt a (hsub.subset ha)
    simp at hb
    omega
  · intro o ho
    rcases List.mem_append.mp ho with h1 | h1
    · have : o < s.next := hlt o (hsub.subset h1)
      omega
    · simp at h1
      omega

theorem createOverlay_overlaysOf (e : Nat) (s : OverlayState) (h : OverlayInv s) :
    overlaysOf e (createOverlay e s) = [s.next] := by
  obtain ⟨hnd, hlt⟩ := h
  have hsub := createOverlay_doc1_sublist e s
  simp only [overlaysOf, createOverlay, eq_self_iff_true, if_true, List.filter_append]
  have h1 : (match s.omap e with
      | some o => s.doc.erase o
      | none => s.doc).filter (fun o => (some s.next == some o)) = [] := by
    rw [List.filter_eq_nil_iff]
    intro a ha
    have : a < s.next := hlt a (hsub.subset ha)
    simp
    omega
  have h2 : [s.next].filter (fun o => (some s.next == some o)) = [s.next] := by simp
  rw [h1, h2]
  rfl

theorem createOverlay_doc_length_of_mem (e : Nat) (s1 : OverlayState) (o0 : Nat)
    (homap : s1.omap e = some o0) (hmem : o0 ∈ s1.doc) :
    (createOverlay e s1).doc.length = s1.doc.length := by
  simp only [createOverlay, homap]
  rw [List.length_append, List.length_erase_of_mem hmem]
  have := List.length_pos_of_mem hmem
  simp
  omega

/-- Claim C7: at most one overlay exists per element.  `createOverlay`
preserves well-formedness, leaves exactly one overlay associated to the
element, and invoking it twice for the same element leaves the document
overlay count unchanged (the prior overlay is removed before the new one is
attached) with again exactly one overlay for the element. -/
theorem createOverlay_unique (e : Nat) (s : OverlayState) (h : OverlayInv s) :
    OverlayInv (createOverlay e s) ∧
    overlaysOf e (createOverlay e s) = [s.next] ∧
    (createOverlay e (createOverlay e s)).doc.length = (createOverlay e s).doc.length ∧
    overlaysOf e (createOverlay e (createOverlay e s)) = [(createOverlay e s).next] := by
  have hinv1 := createOverlay_inv e s h
  refine ⟨hinv1, createOverlay_overlaysOf e s h, ?_,
    createOverlay_overlaysOf e (createOverlay e s) hinv1⟩
  refine createOverlay_doc_length_of_mem e (createOverlay e s) s.next ?_ ?_
  · simp [createOverlay]
  · simp [createOverlay]

/-- Witness for C7: creating an overlay twice from the empty state. -/
theorem createOverlay_unique_witness :
    OverlayInv (createOverlay 0 ⟨[], fun _ => none, 0⟩) ∧
    overlaysOf 0 (createOverlay 0 ⟨[], fun _ => none, 0⟩) = [0] ∧
    (createOverlay 0 (createOverlay 0 ⟨[], fun _ => none, 0⟩)).doc.length =
      (createOverlay 0 ⟨[], fun _ => none, 0⟩).doc.length ∧
    overlaysOf 0 (createOverlay 0 (createOverlay 0 ⟨[], fun _ => none, 0⟩)) =
      [(createOverlay 0 ⟨[], fun _ => none, 0⟩).next] :=
  createOverlay_unique 0 ⟨[], fun _ => none, 0⟩
    ⟨List.nodup_nil, fun o ho => absurd ho (List.not_mem_nil o)⟩

/-- Claim C8: the replace-value and append-value commands respond with
failure and leave the focused element untouched (no events dispatched) when
it is not injectable or is disabled or read-only; otherwise they replace or
append the value (textContent for content-editable elements), dispatch the
input and change events, and respond with success. -/
theorem handleFieldMessage_spec (replace : Bool) (v : String) (active : Option PageElement) :
    ((isInjectable active = false ∨
        ∃ e, active = some e ∧ (e.disabled || e.readOnly) = true) →
      (handleFieldMessage replace v active).success = false ∧
      (handleFieldMessage replace v active).element = active ∧
      (handleFieldMessage replace v active).events = []) ∧
    (∀ e, active = some e → isInjectable active = true →
        e.disabled = false → e.readOnly = false →
      (handleFieldMessage replace v active).success = true ∧
      (handleFieldMessage replace v active).errorNote = none ∧
      (handleFieldMessage replace v active).events = ["input", "change"] ∧
      ∃ e', (handleFieldMessage replace v active).element = some e' ∧
        e'.tagName = e.tagName ∧ e'.typeAttr = e.typeAttr ∧
        e'.isContentEditable = e.isContentEditable ∧
        e'.disabled = e.disabled ∧ e'.readOnly = e.readOnly ∧
        (e.isContentEditable = true →
          e'.textContent = (if replace then v else e.textContent ++ v) ∧
          e'.value = e.value) ∧
        (e.isContentEditable = false →
          e'.value = (if replace then v else e.value ++ v) ∧
          e'.textContent = e.textContent)) := by
  constructor
  · intro hfail
    cases active with
    | none => exact ⟨rfl, rfl, rfl⟩
    | some e =>
      simp only [handleFieldMessage]
      rcases hfail with hni | ⟨e2, he2, hdr⟩
      · rw [if_pos (by simp [hni])]
        exact ⟨rfl, rfl, rfl⟩
      · rw [Option.some.injEq] at he2
        subst he2
        by_cases hin : isInjectable (some e) = true
        · rw [if_neg (by simp [hin]), if_pos hdr]
          exact ⟨rfl, rfl, rfl⟩
        · rw [if_pos (by simpa using hin)]
          exact ⟨rfl, rfl, rfl⟩
  · intro e he hin hdis hro
    cases he
    simp only [handleFieldMessage]
    rw [if_neg (by simp [hin]), if_neg (by simp [hdis, hro])]
    refine ⟨rfl, rfl, rfl, ?_⟩
    by_cases hce : e.isContentEditable = true
    · refine ⟨_, by rw [if_pos hce], ?_, ?_, ?_, ?_, ?_, ?_, ?_⟩ <;>
        simp [hce]
    · refine ⟨_, by rw [if_neg hce], ?_, ?_, ?_, ?_, ?_, ?_, ?_⟩ <;>
        simp [hce]


/-- Witness for C8: a text input accepts injection; a hidden input is
rejected unchanged. -/
theorem handleFieldMessage_spec_witness :
    (handleFieldMessage true "payload"
      (some ⟨"INPUT", some "text", false, false, false, "old", ""⟩)).success = true ∧
    (handleFieldMessage true "payload"
      (some ⟨"INPUT", some "hidden", false, false, false, "old", ""⟩)).success = false ∧
    (handleFieldMessage true "payload"
      (some ⟨"INPUT", some "hidden", false, false, false, "old", ""⟩)).element =
      some ⟨"INPUT", some "hidden", false, false, false, "old", ""⟩ := by
  refine ⟨((handleFieldMessage_spec true "payload" _).2 _ rfl (by decide) rfl rfl).1, ?_, ?_⟩
  · exact ((handleFieldMessage_spec true "payload" _).1 (Or.inl (by decide))).1
  · exact ((handleFieldMessage_spec true "payload" _).1 (Or.inl (by decide))).2.1

/-! ## Claim C5: the form-history warning of rule 4 -/

theorem str_ne_of_head (a b : String) (h : a.data.head? ≠ b.data.head?) : a ≠ b :=
  fun e => h (by rw [e])

theorem head_append_left (s t : String) (c : Char) (h : s.data.head? = some c) :
    (s ++ t).data.head? = some c := by
  rw [String.data_append, List.head?_append, h]
  rfl

theorem autocompleteRisks_head (ac nAC : String) :
    ∀ r ∈ autocompleteRisks ac nAC,
      r.message.data.head? = some 'N' ∨ r.message.data.head? = some 'a' := by
  intro r hr
  unfold autocompleteRisks at hr
  split_ifs at hr <;> simp at hr <;> subst hr
  · exact Or.inl rfl
  · exact Or.inr (head_append_left _ _ _ (head_append_left _ _ _ rfl))
  · exact Or.inr (head_append_left _ _ _ (head_append_left _ _ _ rfl))

theorem typeRisks_head (ty nTy : String) :
    ∀ r ∈ typeRisks ty nTy, r.message.data.head? = some 't' := by
  intro r hr
  unfold typeRisks at hr
  split_ifs at hr <;> simp at hr <;> subst hr
  · exact head_append_left _ _ _ (head_append_left _ _ _ rfl)
  · rfl

theorem nameKeywordRisks_head (name nName : String) :
    ∀ r ∈ nameKeywordRisks name nName, r.message.data.head? = some 'n' := by
  intro r hr
  unfold nameKeywordRisks at hr
  split at hr <;> simp at hr
  subst hr
  exact head_append_left _ _ _ (head_append_left _ _ _
    (head_append_left _ _ _ (head_append_left _ _ _ rfl)))

theorem idKeywordRisks_head (id nId : String) :
    ∀ r ∈ idKeywordRisks id nId, r.message.data.head? = some 'i' := by
  intro r hr
  unfold idKeywordRisks at hr
  split at hr <;> simp at hr
  subst hr
  exact head_append_left _ _ _ (head_append_left _ _ _
    (head_append_left _ _ _ (head_append_left _ _ _ rfl)))

theorem placeholderKeywordRisks_head (nPH : String) :
    ∀ r ∈ placeholderKeywordRisks nPH, r.message.data.head? = some 'P' := by
  intro r hr
  unfold placeholderKeywordRisks at hr
  split at hr <;> simp at hr
  subst hr
  exact head_append_left _ _ _ (head_append_left _ _ _ rfl)

theorem labelKeywordRisks_head (nL : String) :
    ∀ r ∈ labelKeywordRisks nL, r.message.data.head? = some 'L' := by
  intro r hr
  unfold labelKeywordRisks at hr
  split at hr <;> simp at hr
  subst hr
  exact head_append_left _ _ _ (head_append_left _ _ _ rfl)

theorem countP_zero_of_head (m : String) (hd : Char) (risks : List Risk)
    (hall : ∀ r ∈ risks, r.message.data.head? = some hd)
    (hm : m.data.head? ≠ some hd) :
    risks.countP (fun r => r.message == m) = 0 := by
  rw [List.countP_eq_zero]
  intro r hr
  simp only [beq_iff_eq]
  intro he
  exact hm (he ▸ hall r hr)

theorem countP_zero_of_head_or (m : String) (hd1 hd2 : Char) (risks : List Risk)
    (hall : ∀ r ∈ risks, r.message.data.head? = some hd1 ∨ r.message.data.head? = some hd2)
    (hm1 : m.data.head? ≠ some hd1) (hm2 : m.data.head? ≠ some hd2) :
    risks.countP (fun r => r.message == m) = 0 := by
  rw [List.countP_eq_zero]
  intro r hr
  simp only [beq_iff_eq]
  intro he
  rcases hall r hr with hh | hh
  · exact hm1 (he ▸ hh)
  · exact hm2 (he ▸ hh)

theorem autocompleteRisks_count_missing (ac nAC : String) :
    (autocompleteRisks ac nAC).countP (fun r => r.message == missingAutocompleteMsg) =
      (if nAC = "" then 1 else 0) := by
  unfold autocompleteRisks
  split_ifs with h1 h2 h3
  · simp [missingAutocompleteMsg]
  · rw [countP_zero_of_head missingAutocompleteMsg 'a' _ ?_ (by decide)]
    intro r hr
    simp at hr
    subst hr
    exact head_append_left _ _ _ (head_append_left _ _ _ rfl)
  · rw [countP_zero_of_head missingAutocompleteMsg 'a' _ ?_ (by decide)]
    intro r hr
    simp at hr
    subst hr
    exact head_append_left _ _ _ (head_append_left _ _ _ rfl)
  · simp

theorem formHistoryRisks_count (nName nAC : String) :
    (formHistoryRisks nName nAC).countP (fun r => r.message == formHistoryMsg) =
      (if formHistoryCond nName nAC then 1 else 0) := by
  unfold formHistoryRisks
  split_ifs with h1
  · simp [formHistoryMsg]
  · simp

theorem formHistoryRisks_count_missing (nName nAC : String) :
    (formHistoryRisks nName nAC).countP (fun r => r.message == missingAutocompleteMsg) = 0 := by
  unfold formHistoryRisks
  split_ifs with h1 <;> simp [formHistoryMsg, missingAutocompleteMsg]




theorem accumulateRisks_count_formHistory (type name id autocomplete : String)
    (nType nName nId nAC nPH nL : String) :
    (accumulateRisks type name id autocomplete nType nName nId nAC nPH nL).countP
        (fun r => r.message == formHistoryMsg) =
      (if formHistoryCond nName nAC then 1 else 0) := by
  simp only [accumulateRisks, List.countP_append,
    countP_zero_of_head_or formHistoryMsg 'N' 'a' _ (autocompleteRisks_head _ _)
      (by decide) (by decide),
    countP_zero_of_head formHistoryMsg 't' _ (typeRisks_head _ _) (by decide),
    countP_zero_of_head formHistoryMsg 'n' _ (nameKeywordRisks_head _ _) (by decide),
    countP_zero_of_head formHistoryMsg 'i' _ (idKeywordRisks_head _ _) (by decide),
    countP_zero_of_head formHistoryMsg 'P' _ (placeholderKeywordRisks_head _) (by decide),
    countP_zero_of_head formHistoryMsg 'L' _ (labelKeywordRisks_head _) (by decide),
    formHistoryRisks_count]
  simp

theorem accumulateRisks_count_missing (type name id autocomplete : String)
    (nType nName nId nAC nPH nL : String) :
    (accumulateRisks type name id autocomplete nType nName nId nAC nPH nL).countP
        (fun r => r.message == missingAutocompleteMsg) =
      (if nAC = "" then 1 else 0) := by
  simp only [accumulateRisks, List.countP_append, autocompleteRisks_count_missing,
    countP_zero_of_head missingAutocompleteMsg 't' _ (typeRisks_head _ _) (by decide),
    countP_zero_of_head missingAutocompleteMsg 'n' _ (nameKeywordRisks_head _ _) (by decide),
    countP_zero_of_head missingAutocompleteMsg 'i' _ (idKeywordRisks_head _ _) (by decide),
    countP_zero_of_head missingAutocompleteMsg 'P' _ (placeholderKeywordRisks_head _)
      (by decide),
    countP_zero_of_head missingAutocompleteMsg 'L' _ (labelKeywordRisks_head _) (by decide),
    formHistoryRisks_count_missing]
  simp

theorem accumulateLevel_ne_low_of_formHistory (nType nName nId nAC : String)
    (h : formHistoryCond nName nAC = true) :
    accumulateLevel nType nName nId nAC ≠ RiskLevel.low := by
  simp only [accumulateLevel]
  rw [if_pos h]
  exact bumpLowToMedium_ne_low _

/-- Claim C5: a verdict never contains both rule (1)'s missing-autocomplete
warning and rule (4)'s form-history warning; the form-history warning appears
exactly once when the normalized name is nonempty, the normalized
autocomplete is nonempty and not in the safe set, and never otherwise; and
when it appears the final risk level is at least medium.  (At the attrs
level an "attribute present" is a nonempty string: the DOM wrapper maps
absent attributes to the empty string.) -/
theorem analyzeFieldAttributes_formHistory_rule (attrs : FieldAttrs) (v : Verdict)
    (h : analyzeFieldAttributes attrs = some v) :
    (v.risks.countP (fun r => r.message == missingAutocompleteMsg) = 0 ∨
     v.risks.countP (fun r => r.message == formHistoryMsg) = 0) ∧
    v.risks.countP (fun r => r.message == formHistoryMsg) =
      (if formHistoryCond (strToLower (attrs.name.getD ""))
          (strToLower (attrs.autocomplete.getD "")) then 1 else 0) ∧
    (formHistoryCond (strToLower (attrs.name.getD ""))
        (strToLower (attrs.autocomplete.getD "")) = true →
      v.riskLevel ≠ RiskLevel.low) := by
  simp only [analyzeFieldAttributes] at h
  split_ifs at h with h1 h2
  rw [Option.some.injEq] at h
  subst h
  refine ⟨?_, accumulateRisks_count_formHistory _ _ _ _ _ _ _ _ _ _, ?_⟩
  · by_cases hac : strToLower (attrs.autocomplete.getD "") = ""
    · right
      have hcnd : formHistoryCond (strToLower (attrs.name.getD ""))
          (strToLower (attrs.autocomplete.getD "")) = false := by
        rw [formHistoryCond, hac]
        simp
      have hcp := accumulateRisks_count_formHistory (attrs.type.getD "text")
        (attrs.name.getD "") (attrs.id.getD "") (attrs.autocomplete.getD "")
        (strToLower (attrs.type.getD "text")) (strToLower (attrs.name.getD ""))
        (strToLower (attrs.id.getD "")) (strToLower (attrs.autocomplete.getD ""))
        (strToLower (attrs.placeholder.getD "")) (strToLower (attrs.labelText.getD ""))
      rw [hcnd] at hcp
      simp only [Bool.false_eq_true, if_false] at hcp
      exact hcp
    · left
      have hcp := accumulateRisks_count_missing (attrs.type.getD "text")
        (attrs.name.getD "") (attrs.id.getD "") (attrs.autocomplete.getD "")
        (strToLower (attrs.type.getD "text")) (strToLower (attrs.name.getD ""))
        (strToLower (attrs.id.getD "")) (strToLower (attrs.autocomplete.getD ""))
        (strToLower (attrs.placeholder.getD "")) (strToLower (attrs.labelText.getD ""))
      rw [if_neg hac] at hcp
      exact hcp
  · intro hcond
    exact accumulateLevel_ne_low_of_formHistory _ _ _ _ hcond



def formHistoryDemoAttrs : FieldAttrs :=
  ⟨some "input", some "text", some "someRandomField", none, some "on", none, none⟩

def formHistoryDemoVerdict : Verdict :=
  ⟨.high, [⟨.error, "autocomplete=\"on\" - WILL trigger autofill"⟩, ⟨.warning, formHistoryMsg⟩],
   ⟨"input", "text", "someRandomField", "", "on", ""⟩⟩

/-- Witness for C5: a named text input with autocomplete="on". -/
theorem analyzeFieldAttributes_formHistory_rule_witness :
    (formHistoryDemoVerdict.risks.countP
        (fun r => r.message == missingAutocompleteMsg) = 0 ∨
     formHistoryDemoVerdict.risks.countP (fun r => r.message == formHistoryMsg) = 0) ∧
    formHistoryDemoVerdict.risks.countP (fun r => r.message == formHistoryMsg) =
      (if formHistoryCond (strToLower (formHistoryDemoAttrs.name.getD ""))
          (strToLower (formHistoryDemoAttrs.autocomplete.getD "")) then 1 else 0) ∧
    (formHistoryCond (strToLower (formHistoryDemoAttrs.name.getD ""))
        (strToLower (formHistoryDemoAttrs.autocomplete.getD "")) = true →
      formHistoryDemoVerdict.riskLevel ≠ RiskLevel.low) :=
  analyzeFieldAttributes_formHistory_rule formHistoryDemoAttrs formHistoryDemoVerdict (by decide)


/-! ## Claims C3 and C4: the forbidden-word matcher and highlighter -/


theorem ciStartsWith_length (w : List Char) : ∀ l, ciStartsWith w l = true → w.length ≤ l.length := by
  induction w with
  | nil => intro l _; simp
  | cons a s ih =>
    intro l h
    cases l with
    | nil => simp [ciStartsWith] at h
    | cons b t =>
      simp only [ciStartsWith, Bool.and_eq_true] at h
      have := ih t h.2
      simp only [List.length_cons]
      omega

theorem wordMatchAt_parts {t : List Char} {i : Nat} {w : String} (h : wordMatchAt t i w = true) :
    boundaryAt t i = true ∧ ciMatchAt t i w.data = true ∧ boundaryAt t (i + w.length) = true := by
  simp only [wordMatchAt, Bool.and_eq_true] at h
  exact ⟨h.1.1, h.1.2, h.2⟩

theorem wordMatchAt_le_length {t : List Char} {i : Nat} {w : String}
    (h : wordMatchAt t i w = true) (hi : i ≤ t.length) : i + w.length ≤ t.length := by
  have hci := (wordMatchAt_parts h).2.1
  have := ciStartsWith_length w.data (t.drop i) hci
  rw [List.length_drop] at this
  have h2 : w.length ≤ t.length - i := this
  omega

/-- Ordering invariant of the `exec` loop output relative to `lastIndex`:
each match starts at or after the current position, ends within the text, and
the rest of the matches respect the position after it. -/
def MatchChain (t : List Char) : Nat → List (Nat × Nat) → Prop
  | _, [] => True
  | last, (i, n) :: ms => last ≤ i ∧ i + n ≤ t.length ∧ MatchChain t (i + n) ms

theorem execScan_chain (ws : List String) (t : List Char) :
    ∀ fuel i last, last ≤ i → MatchChain t last (execScan ws t i fuel) := by
  intro fuel
  induction fuel with
  | zero => intro i last _; exact trivial
  | succ fuel ih =>
    intro i last hlast
    rw [execScan]
    split_ifs with hlen
    · exact trivial
    · cases hf : firstWordAt ws t i with
      | none => exact ih (i + 1) last (by omega)
      | some w =>
        have hm : wordMatchAt t i w = true := List.find?_some hf
        refine ⟨hlast, wordMatchAt_le_length hm (by omega), ih (i + w.length) (i + w.length) le_rfl⟩

theorem execScan_sound (ws : List String) (t : List Char) :
    ∀ fuel i p n, (p, n) ∈ execScan ws t i fuel →
      ∃ w, w ∈ ws ∧ wordMatchAt t p w = true ∧ n = w.length ∧ i ≤ p := by
  intro fuel
  induction fuel with
  | zero => intro i p n h; simp [execScan] at h
  | succ fuel ih =>
    intro i p n h
    rw [execScan] at h
    split_ifs at h with hlen
    · simp at h
    · cases hf : firstWordAt ws t i with
      | none =>
        rw [hf] at h
        obtain ⟨w, hw, hm, hn, hip⟩ := ih (i + 1) p n h
        exact ⟨w, hw, hm, hn, by omega⟩
      | some w =>
        rw [hf] at h
        rcases List.mem_cons.mp h with he | he
        · injection he with hp hn
          subst hp
          subst hn
          exact ⟨w, List.mem_of_find?_eq_some hf, List.find?_some hf, rfl, le_rfl⟩
        · obtain ⟨w2, hw2, hm2, hn2, hip2⟩ := ih (i + w.length) p n he
          exact ⟨w2, hw2, hm2, hn2, by omega⟩



/-- Matches listed leftmost-first with disjoint ranges. -/
def DisjointLeftmost : List (Nat × Nat) → Prop
  | [] => True
  | [_] => True
  | (i, n) :: (j, m) :: ms => i + n ≤ j ∧ DisjointLeftmost ((j, m) :: ms)

theorem matchChain_disjoint (t : List Char) :
    ∀ ms last, MatchChain t last ms → DisjointLeftmost ms := by
  intro ms
  induction ms with
  | nil => intro last _; exact trivial
  | cons a ms ih =>
    intro last h
    obtain ⟨i, n⟩ := a
    obtain ⟨h1, h2, h3⟩ := h
    cases ms with
    | nil => exact trivial
    | cons b ms2 =>
      obtain ⟨j, m⟩ := b
      exact ⟨h3.1, ih (i + n) h3⟩

theorem uint32_le_iff (a b : UInt32) : (a ≤ b) ↔ a.toNat ≤ b.toNat := by
  simp [UInt32.le_def, BitVec.le_def, UInt32.toNat]

theorem char_toNat_ofNat_valid (n : Nat) (h : n.isValidChar) : (Char.ofNat n).toNat = n := by
  rw [Char.ofNat, dif_pos h]
  rfl

theorem isWordChar_toNat (c : Char) : isWordChar c = true ↔
    (65 ≤ c.toNat ∧ c.toNat ≤ 90) ∨ (97 ≤ c.toNat ∧ c.toNat ≤ 122) ∨
    (48 ≤ c.toNat ∧ c.toNat ≤ 57) ∨ c.toNat = 95 := by
  have h95 : c = '_' ↔ c.toNat = 95 := by
    constructor
    · intro h; subst h; rfl
    · intro h
      apply Char.ext
      apply UInt32.ext
      exact h
  simp only [isWordChar, Char.isAlphanum, Char.isAlpha, Char.isUpper, Char.isLower, Char.isDigit,
    Bool.or_eq_true, Bool.and_eq_true, decide_eq_true_eq, beq_iff_eq, ge_iff_le, uint32_le_iff,
    h95, show (65:UInt32).toNat = 65 from rfl, show (90:UInt32).toNat = 90 from rfl,
    show (97:UInt32).toNat = 97 from rfl, show (122:UInt32).toNat = 122 from rfl,
    show (48:UInt32).toNat = 48 from rfl, show (57:UInt32).toNat = 57 from rfl]
  show _ ↔ _ ∨ _ ∨ _ ∨ c.val.toNat = 95
  tauto

theorem isWordChar_toLower (c : Char) : isWordChar c.toLower = isWordChar c := by
  unfold Char.toLower
  by_cases h : 65 ≤ c.toNat ∧ c.toNat ≤ 90
  · rw [if_pos h]
    have hv : (c.toNat + 32).isValidChar := Or.inl (by omega)
    have ht : (Char.ofNat (c.toNat + 32)).toNat = c.toNat + 32 := char_toNat_ofNat_valid _ hv
    have h1 : isWordChar (Char.ofNat (c.toNat + 32)) = true := by
      rw [isWordChar_toNat, ht]
      omega
    have h2 : isWordChar c = true := by
      rw [isWordChar_toNat]
      omega
    rw [h1, h2]
  · rw [if_neg (fun hc => h ⟨hc.1, hc.2⟩)]

theorem ciStartsWith_get (w : List Char) :
    ∀ (l : List Char), ciStartsWith w l = true →
      ∀ (k : Nat) (c' : Char), w[k]? = some c' → ∃ c, l[k]? = some c ∧ c.toLower = c'.toLower := by
  induction w with
  | nil => intro l _ k c' hk; simp at hk
  | cons a s ih =>
    intro l h k c' hk
    cases l with
    | nil => simp [ciStartsWith] at h
    | cons b t =>
      simp only [ciStartsWith, Bool.and_eq_true, beq_iff_eq] at h
      cases k with
      | zero =>
        simp only [List.getElem?_cons_zero, Option.some.injEq] at hk
        subst hk
        exact ⟨b, by simp, h.1.symm⟩
      | succ k2 =>
        simp only [List.getElem?_cons_succ] at hk ⊢
        exact ih t h.2 k2 c' hk

theorem ciMatchAt_wordCharAt (t : List Char) (i : Nat) (w : List Char)
    (hw : ∀ c ∈ w, isWordChar c = true) (h : ciMatchAt t i w = true) :
    ∀ k, k < w.length → wordCharAt t (i + k) = true := by
  intro k hk
  obtain ⟨c', hc'⟩ : ∃ c', w[k]? = some c' := by
    rw [List.getElem?_eq_getElem hk]
    exact ⟨_, rfl⟩
  obtain ⟨c, hc, hlow⟩ := ciStartsWith_get w (t.drop i) h k c' hc'
  rw [List.getElem?_drop] at hc
  have hwc' : isWordChar c' = true := hw c' (List.getElem?_mem hc')
  have hwc : isWordChar c = true := by
    rw [← isWordChar_toLower c, hlow, isWordChar_toLower c']
    exact hwc'
  rw [wordCharAt, hc]
  exact hwc



theorem boundaryAt_false_of_wordChars (t : List Char) (m : Nat)
    (h1 : wordCharAt t m = true) (h2 : wordCharAt t (m + 1) = true) :
    boundaryAt t (m + 1) = false := by
  simp [boundaryAt, h1, h2]

theorem string_length_pos (w : String) (h : w ≠ "") : 0 < w.length := by
  cases w with
  | mk data =>
    cases data with
    | nil => exact absurd rfl h
    | cons c cs => simp [String.length]

theorem wordMatch_no_overlap (t : List Char) (i j : Nat) (wA wB : String)
    (hwA : ∀ c ∈ wA.data, isWordChar c = true)
    (hA : wordMatchAt t i wA = true) (hB : wordMatchAt t j wB = true)
    (hij : i < j) (hji : j < i + wA.length) : False := by
  have hci := (wordMatchAt_parts hA).2.1
  have hb := (wordMatchAt_parts hB).1
  have hlenA : wA.length = wA.data.length := rfl
  obtain ⟨m, rfl⟩ : ∃ m, j = m + 1 := ⟨j - 1, by omega⟩
  have h1 : wordCharAt t m = true := by
    have := ciMatchAt_wordCharAt t i wA.data hwA hci (m - i) (by omega)
    rwa [show i + (m - i) = m by omega] at this
  have h2 : wordCharAt t (m + 1) = true := by
    have := ciMatchAt_wordCharAt t i wA.data hwA hci (m + 1 - i) (by omega)
    rwa [show i + (m + 1 - i) = m + 1 by omega] at this
  rw [boundaryAt_false_of_wordChars t m h1 h2] at hb
  cases hb

theorem wordMatch_same_start_length (t : List Char) (j : Nat) (wA wB : String)
    (hwA : ∀ c ∈ wA.data, isWordChar c = true)
    (hwB : ∀ c ∈ wB.data, isWordChar c = true)
    (hA : wordMatchAt t j wA = true) (hB : wordMatchAt t j wB = true)
    (hneA : wA ≠ "") (hneB : wB ≠ "") : wA.length = wB.length := by
  have hposA := string_length_pos wA hneA
  have hposB := string_length_pos wB hneB
  have hlenA : wA.length = wA.data.length := rfl
  have hlenB : wB.length = wB.data.length := rfl
  rcases Nat.lt_trichotomy wA.length wB.length with hlt | heq | hgt
  · exfalso
    have hciB := (wordMatchAt_parts hB).2.1
    have hbA := (wordMatchAt_parts hA).2.2
    obtain ⟨m, hm⟩ : ∃ m, j + wA.length = m + 1 := ⟨j + wA.length - 1, by omega⟩
    have h1 : wordCharAt t m = true := by
      have := ciMatchAt_wordCharAt t j wB.data hwB hciB (m - j) (by omega)
      rwa [show j + (m - j) = m by omega] at this
    have h2 : wordCharAt t (m + 1) = true := by
      have := ciMatchAt_wordCharAt t j wB.data hwB hciB (m + 1 - j) (by omega)
      rwa [show j + (m + 1 - j) = m + 1 by omega] at this
    rw [hm, boundaryAt_false_of_wordChars t m h1 h2] at hbA
    cases hbA
  · exact heq
  · exfalso
    have hciA := (wordMatchAt_parts hA).2.1
    have hbB := (wordMatchAt_parts hB).2.2
    obtain ⟨m, hm⟩ : ∃ m, j + wB.length = m + 1 := ⟨j + wB.length - 1, by omega⟩
    have h1 : wordCharAt t m = true := by
      have := ciMatchAt_wordCharAt t j wA.data hwA hciA (m - j) (by omega)
      rwa [show j + (m - j) = m by omega] at this
    have h2 : wordCharAt t (m + 1) = true := by
      have := ciMatchAt_wordCharAt t j wA.data hwA hciA (m + 1 - j) (by omega)
      rwa [show j + (m + 1 - j) = m + 1 by omega] at this
    rw [hm, boundaryAt_false_of_wordChars t m h1 h2] at hbB
    cases hbB



theorem execScan_complete (ws : List String) (t : List Char) (j : Nat) (w : String)
    (hne : ∀ u ∈ ws, u ≠ "")
    (hwc : ∀ u ∈ ws, ∀ c ∈ u.data, isWordChar c = true)
    (hw : w ∈ ws) (hm : wordMatchAt t j w = true) :
    ∀ fuel i, t.length + 1 ≤ fuel + i → i ≤ j → (j, w.length) ∈ execScan ws t i fuel := by
  have hposw := string_length_pos w (hne w hw)
  have hlb := ciStartsWith_length w.data (t.drop j) (wordMatchAt_parts hm).2.1
  rw [List.length_drop] at hlb
  have hlenw : w.length = w.data.length := rfl
  have hjlt : j < t.length := by omega
  intro fuel
  induction fuel with
  | zero => intro i hfi hij; omega
  | succ fuel ih =>
    intro i hfi hij
    rw [execScan]
    rw [if_neg (by omega)]
    cases hf : firstWordAt ws t i with
    | none =>
      simp only [hf]
      have hij2 : i < j := by
        rcases Nat.lt_or_ge i j with h | h
        · exact h
        · exfalso
          have hieq : i = j := by omega
          subst hieq
          have hnone := List.find?_eq_none.mp hf w hw
          rw [hm] at hnone
          exact hnone rfl
      exact ih (i + 1) (by omega) (by omega)
    | some wf =>
      simp only [hf]
      have hwf : wf ∈ ws := List.mem_of_find?_eq_some hf
      have hmf : wordMatchAt t i wf = true := List.find?_some hf
      rcases Nat.lt_or_ge i j with hlt | hge
      · have hle : i + wf.length ≤ j := by
          by_contra hcon
          push_neg at hcon
          exact wordMatch_no_overlap t i j wf w (hwc wf hwf) hmf hm hlt hcon
        have hposwf := string_length_pos wf (hne wf hwf)
        exact List.mem_cons_of_mem _ (ih (i + wf.length) (by omega) (by omega))
      · have hieq : i = j := by omega
        subst hieq
        have hlen := wordMatch_same_start_length t i wf w (hwc wf hwf) (hwc w hw) hmf hm
          (hne wf hwf) (hne w hw)
        rw [← hlen]
        exact List.mem_cons_self _ _

theorem matchChain_le (t : List Char) :
    ∀ ms last, MatchChain t last ms → ∀ e ∈ ms, last ≤ e.1 := by
  intro ms
  induction ms with
  | nil => intro last _ e he; cases he
  | cons a ms ih =>
    intro last h e he
    obtain ⟨i, n⟩ := a
    obtain ⟨h1, h2, h3⟩ := h
    rcases List.mem_cons.mp he with rfl | he2
    · exact h1
    · have := ih (i + n) h3 e he2
      omega

theorem matchChain_pairwise (t : List Char) :
    ∀ ms last, MatchChain t last ms → (∀ e ∈ ms, 1 ≤ e.2) →
      List.Pairwise (fun a b => a.1 < b.1) ms := by
  intro ms
  induction ms with
  | nil => intro last _ _; exact List.Pairwise.nil
  | cons a ms ih =>
    intro last h hpos
    obtain ⟨i, n⟩ := a
    obtain ⟨h1, h2, h3⟩ := h
    refine List.Pairwise.cons ?_ (ih (i + n) h3 (fun e he => hpos e (List.mem_cons_of_mem _ he)))
    intro b hb
    have hlb := matchChain_le t ms (i + n) h3 b hb
    have hn := hpos (i, n) (List.mem_cons_self _ _)
    simp only at hn
    omega

theorem filter_start_unique (j n0 : Nat) :
    ∀ l : List (Nat × Nat), l.Pairwise (fun a b => a.1 < b.1) →
      (j, n0) ∈ l → (∀ p m, (p, m) ∈ l → p = j → m = n0) →
      l.filter (fun e => e.1 == j) = [(j, n0)] := by
  intro l
  induction l with
  | nil => intro _ hmem _; cases hmem
  | cons a l ih =>
    intro hpair hmem huniq
    by_cases ha : a.1 = j
    · have ha2 : a.2 = n0 := huniq a.1 a.2 (by simp) ha
      have htail : l.filter (fun e => e.1 == j) = [] := by
        rw [List.filter_eq_nil_iff]
        intro e he
        have := (List.pairwise_cons.mp hpair).1 e he
        simp only [beq_iff_eq]
        omega
      have haeq : a = (j, n0) := by
        obtain ⟨a1, a2⟩ := a
        simp only at ha ha2
        rw [ha, ha2]
      rw [List.filter_cons, if_pos (by simp [ha]), htail, haeq]
    · have hmem2 : (j, n0) ∈ l := by
        rcases List.mem_cons.mp hmem with rfl | h2
        · simp at ha
        · exact h2
      rw [List.filter_cons, if_neg (by simp [ha])]
      exact ih (List.pairwise_cons.mp hpair).2 hmem2
        (fun p m hpm hp => huniq p m (List.mem_cons_of_mem _ hpm) hp)



theorem string_mk_append (l1 l2 : List Char) :
    String.mk l1 ++ String.mk l2 = String.mk (l1 ++ l2) := rfl

theorem sliceStr_glue (t : List Char) (a b c : Nat) (hab : a ≤ b) (hbc : b ≤ c) :
    sliceStr t a b ++ sliceStr t b c = sliceStr t a c := by
  unfold sliceStr
  rw [string_mk_append]
  congr 1
  have hdb : t.drop b = (t.drop a).drop (b - a) := by
    rw [List.drop_drop]
    congr 1
    omega
  rw [hdb, show c - a = (b - a) + (c - b) by omega, List.take_add]

theorem fragmentsText_append : ∀ a b : List Fragment,
    fragmentsText (a ++ b) = fragmentsText a ++ fragmentsText b := by
  intro a
  induction a with
  | nil => intro b; simp [fragmentsText]
  | cons f fs ih =>
    intro b
    simp [fragmentsText, ih, String.append_assoc]

theorem buildFragments_text (t : List Char) :
    ∀ ms last, MatchChain t last ms → last ≤ t.length →
      fragmentsText (buildFragments t last ms) = sliceStr t last t.length := by
  intro ms
  induction ms with
  | nil =>
    intro last _ hle
    rw [buildFragments]
    split_ifs with h
    · simp [fragmentsText, Fragment.text, String.append_empty]
    · have heq : last = t.length := by omega
      subst heq
      simp only [fragmentsText, sliceStr, Nat.sub_self, List.take_zero]
  | cons a ms ih =>
    obtain ⟨i, n⟩ := a
    intro last hch hle
    obtain ⟨h1, h2, h3⟩ := hch
    rw [buildFragments]
    rw [fragmentsText_append]
    have hrest : fragmentsText (Fragment.highlight (sliceStr t i (i + n)) ::
        buildFragments t (i + n) ms) =
        sliceStr t i (i + n) ++ sliceStr t (i + n) t.length := by
      simp only [fragmentsText, Fragment.text]
      rw [ih (i + n) h3 h2]
    rw [hrest]
    rw [sliceStr_glue t i (i + n) t.length (by omega) h2]
    by_cases hlt : last < i
    · rw [if_pos hlt]
      simp only [fragmentsText, Fragment.text, String.append_empty]
      exact sliceStr_glue t last i t.length h1 (by omega)
    · rw [if_neg hlt]
      have heq : last = i := by omega
      subst heq
      simp only [List.nil_append, fragmentsText]
      rfl



/-- Claim C4: highlighting a text node and then removing the highlights
yields a node sequence whose concatenated text equals the original text
exactly.  The hypothesis that every forbidden word is nonempty delimits the
domain on which the embedding is faithful: the JS `exec` loop does not
terminate on a zero-length match, and word lists are built from nonempty
terms (the popup filters out empty entries). -/
theorem highlight_remove_roundtrip (ws : List String) (t : String)
    (_hne : ∀ u ∈ ws, u ≠ "") :
    fragmentsText (removeWordHighlights (highlightForbiddenWordsInNode ws t)) = t := by
  have hrem : ∀ fs : List Fragment, fragmentsText (removeWordHighlights fs) = fragmentsText fs := by
    intro fs
    induction fs with
    | nil => rfl
    | cons f fs ih =>
      cases f <;> simp [removeWordHighlights, fragmentsText, Fragment.text, ih] <;>
        rw [← ih] <;> rfl
  rw [hrem]
  rw [highlightForbiddenWordsInNode]
  have hslice : sliceStr t.data 0 t.data.length = t := by
    unfold sliceStr
    rw [List.drop_zero, Nat.sub_zero, List.take_length]
  have hbuild : fragmentsText (buildFragments t.data 0 (execMatches ws t.data)) =
      sliceStr t.data 0 t.data.length :=
    buildFragments_text t.data _ 0 (execScan_chain ws t.data _ 0 0 le_rfl) (by omega)
  split_ifs with hempty
  · simp [fragmentsText, Fragment.text, String.append_empty]
  · rw [hbuild, hslice]

/-- Witness for C4. -/
theorem highlight_remove_roundtrip_witness :
    fragmentsText (removeWordHighlights (highlightForbiddenWordsInNode DEFAULT_FORBIDDEN_WORDS
      "todo visit example.com now TODO")) = "todo visit example.com now TODO" :=
  highlight_remove_roundtrip DEFAULT_FORBIDDEN_WORDS "todo visit example.com now TODO"
    (by decide)

/-- Claim C3 (amended): every emitted match is word-boundary anchored on
both sides and is a case-insensitive occurrence of a listed word; matches are
disjoint in leftmost-first order (so a word occurring only as a proper
substring of a longer word is never highlighted); and, provided the listed
words are made of word characters only (letters, digits, underscore), every
standalone whole-word occurrence produces exactly one highlight.  The last
part fails for words containing non-word characters — see the
counterexample — which is the amendment to the claim. -/
theorem forbiddenWord_matching_spec (ws : List String) (t : String)
    (hne : ∀ u ∈ ws, u ≠ "") :
    (∀ p n, (p, n) ∈ execMatches ws t.data →
       boundaryAt t.data p = true ∧ boundaryAt t.data (p + n) = true ∧
       ∃ u ∈ ws, ciMatchAt t.data p u.data = true ∧ n = u.length) ∧
    DisjointLeftmost (execMatches ws t.data) ∧
    ((∀ u ∈ ws, ∀ c ∈ u.data, isWordChar c = true) →
      ∀ j u, u ∈ ws → wordMatchAt t.data j u = true →
        (execMatches ws t.data).filter (fun e => e.1 == j) = [(j, u.length)]) := by
  have hunfold : execMatches ws t.data = execScan ws t.data 0 (t.data.length + 1) := rfl
  refine ⟨?_, ?_, ?_⟩
  · intro p n hmem
    rw [hunfold] at hmem
    obtain ⟨u, hu, hm, hn, _⟩ := execScan_sound ws t.data (t.data.length + 1) 0 p n hmem
    obtain ⟨hb1, hci, hb2⟩ := wordMatchAt_parts hm
    subst hn
    exact ⟨hb1, hb2, u, hu, hci, rfl⟩
  · rw [hunfold]
    exact matchChain_disjoint t.data _ 0 (execScan_chain ws t.data _ 0 0 le_rfl)
  · intro hwc j u hu hm
    have hpos : ∀ e ∈ execMatches ws t.data, 1 ≤ e.2 := by
      intro e he
      obtain ⟨p, n⟩ := e
      rw [hunfold] at he
      obtain ⟨u2, hu2, hm2, hn2, _⟩ := execScan_sound ws t.data (t.data.length + 1) 0 p n he
      subst hn2
      exact string_length_pos u2 (hne u2 hu2)
    have hpair : (execMatches ws t.data).Pairwise (fun a b => a.1 < b.1) := by
      rw [hunfold] at hpos ⊢
      exact matchChain_pairwise t.data _ 0 (execScan_chain ws t.data _ 0 0 le_rfl) hpos
    have hmem : (j, u.length) ∈ execMatches ws t.data := by
      rw [hunfold]
      exact execScan_complete ws t.data j u hne hwc hu hm (t.data.length + 1) 0
        (by omega) (by omega)
    refine filter_start_unique j u.length _ hpair hmem ?_
    intro p m hpm hp
    subst hp
    rw [hunfold] at hpm
    obtain ⟨u2, hu2, hm2, hn2, _⟩ := execScan_sound ws t.data (t.data.length + 1) 0 p m hpm
    subst hn2
    exact wordMatch_same_start_length t.data p u2 u (hwc u2 hu2) (hwc u hu) hm2 hm
      (hne u2 hu2) (hne u hu)

/-- Witness for C3. -/
theorem forbiddenWord_matching_spec_witness :
    (∀ p n, (p, n) ∈ execMatches ["todo"] "a todo b".data →
       boundaryAt "a todo b".data p = true ∧ boundaryAt "a todo b".data (p + n) = true ∧
       ∃ u ∈ ["todo"], ciMatchAt "a todo b".data p u.data = true ∧ n = u.length) ∧
    DisjointLeftmost (execMatches ["todo"] "a todo b".data) ∧
    ((∀ u ∈ ["todo"], ∀ c ∈ u.data, isWordChar c = true) →
      ∀ j u, u ∈ ["todo"] → wordMatchAt "a todo b".data j u = true →
        (execMatches ["todo"] "a todo b".data).filter (fun e => e.1 == j) = [(j, u.length)]) :=
  forbiddenWord_matching_spec ["todo"] "a todo b" (by decide)

/-- Counterexample for C3 as stated: with word list `["a.a"]` and text
`"a.a.a"`, the occurrence of `a.a` at index 2 is standalone (word-boundary
anchored on both sides, full case-insensitive match), yet the highlighter
emits only the overlapping leftmost match at index 0, so that occurrence
produces no highlight. -/
theorem forbiddenWord_overlap_counterexample :
    wordMatchAt "a.a.a".data 2 "a.a" = true ∧
    highlightForbiddenWordsInNode ["a.a"] "a.a.a" =
      [Fragment.highlight "a.a", Fragment.plain ".a"] := by decide


end Buglin
